import Mathlib

/-!
Verification of the chunking pipeline in `extract_clean_chunk.py`
(repository `drdo_group1`).

Strings are modelled as `List Char`; Python `int` parameters
(`chunk_size`, `overlap`) are modelled as `Int` so that negative CLI
values behave as in Python.  Python string indices appearing as loop
state are natural numbers (the loop variable `start` never goes
negative in the source).
-/

namespace Drdo

/-- Python's whitespace set, as used by `str.strip()` and by `\s` in a
`re` pattern over `str` (ASCII whitespace, the C1 separators, NEL,
NBSP and the Unicode space/line/paragraph separators). -/
def isPySpace (c : Char) : Bool :=
  let n := c.toNat
  n = 0x20 || n = 0x09 || n = 0x0a || n = 0x0d || n = 0x0b || n = 0x0c ||
  (0x1c ≤ n && n ≤ 0x1f) || n = 0x85 || n = 0xa0 || n = 0x1680 ||
  (0x2000 ≤ n && n ≤ 0x200a) || n = 0x2028 || n = 0x2029 || n = 0x202f || n = 0x205f || n = 0x3000

/-- The characters matched by `[ \t]` in `normalize_whitespace`'s
`re.sub(r"[ \t]+", " ", text)`. -/
def isSpTab (c : Char) : Bool := c = ' ' || c = '\t'

/-- Sentence-ending punctuation, the class `[.!?]` of the boundary regex. -/
def isPunct (c : Char) : Bool := c = '.' || c = '!' || c = '?'

/-- The lookahead class `[A-Z(“"']` of the boundary regex: an ASCII
uppercase letter, an opening parenthesis, a left double quotation
mark, a straight double quote or an apostrophe. -/
def isNextClass (c : Char) : Bool :=
  ('A' ≤ c && c ≤ 'Z') || c = '(' || c = '“' || c = '"' || c = '\''

/-- Python `str.strip()`: drop leading and trailing whitespace. -/
def pyStrip (l : List Char) : List Char :=
  List.rdropWhile isPySpace (l.dropWhile isPySpace)

/-- Python `text.split("\n")` (Python `str.split` with an explicit separator:
the empty string yields `[""]`, a trailing separator yields a trailing
empty piece). -/
def splitNl : List Char → List (List Char)
  | [] => [[]]
  | c :: rest =>
    if c = '\n' then [] :: splitNl rest
    else
      match splitNl rest with
      | [] => [[c]]
      | l :: ls => (c :: l) :: ls

/-- Python `"\n".join(lines)`. -/
def joinNl : List (List Char) → List Char
  | [] => []
  | [x] => x
  | x :: y :: tl => x ++ '\n' :: joinNl (y :: tl)

/-- Effective end index of a Python slice `s[_:b]` over a string of
length `n`: a negative `b` counts from the end (clamped at `0`), a
non-negative `b` is clamped at `n`. -/
def pySliceEnd (n : Nat) (b : Int) : Nat :=
  if b < 0 then (b + n).toNat else min b.toNat n

/-- Python slice `s[a:b]` with a non-negative start index `a` and an
arbitrary integer end index `b`. -/
def pySlice (l : List Char) (a : Nat) (b : Int) : List Char :=
  (l.take (pySliceEnd l.length b)).drop a

/-- Slice `s[a:b]` for natural indices. -/
def sliceNat (l : List Char) (a b : Nat) : List Char :=
  (l.take b).drop a

/-! ## `normalize_whitespace` (lines 84–103) -/

/-- Python `text.replace("\r\n", "\n").replace("\r", "\n")`: unify line endings. -/
def normNl : List Char → List Char
  | [] => []
  | '\r' :: '\n' :: rest => '\n' :: normNl rest
  | '\r' :: rest => '\n' :: normNl rest
  | c :: rest => c :: normNl rest

/-- Python `re.sub(r"[ \t]+", " ", text)`: collapse every run of spaces/tabs to a
single space.  The flag records whether the previous character was part
of such a run. -/
def collapseSpTabAux : Bool → List Char → List Char
  | _, [] => []
  | inRun, c :: rest =>
    if isSpTab c then
      if inRun then collapseSpTabAux true rest
      else ' ' :: collapseSpTabAux true rest
    else c :: collapseSpTabAux false rest

def collapseSpTab (l : List Char) : List Char := collapseSpTabAux false l

/-- Python `re.fullmatch(r"\d{1,4}", ln)`: a line of one to four digits.  (We
model `\d` as the ASCII digits; the repository's inputs are ASCII page
numbers.) -/
def isDigitLine (l : List Char) : Bool :=
  decide (1 ≤ l.length) && decide (l.length ≤ 4) && l.all Char.isDigit

/-- The `last_blank` loop of `normalize_whitespace` (lines 93–102):
keep at most one empty line per run of empty lines. -/
def collapseBlankAux : Bool → List (List Char) → List (List Char)
  | _, [] => []
  | lastBlank, ln :: rest =>
    if ln.isEmpty then
      if lastBlank then collapseBlankAux true rest
      else ln :: collapseBlankAux true rest
    else ln :: collapseBlankAux false rest

/-- Function `normalize_whitespace` (lines 84–103): unify newlines, collapse
space/tab runs, strip each line, drop pure 1–4-digit lines, collapse
runs of blank lines, join and strip the result. -/
def normalize_whitespace (t : List Char) : List Char :=
  let lines := (splitNl (collapseSpTab (normNl t))).map pyStrip
  let lines := lines.filter (fun ln => !(isDigitLine ln))
  let outLines := collapseBlankAux false lines
  pyStrip (joinNl outLines)

/-! ## `remove_common_headers_footers` (lines 105–112) -/

/-- The comprehension filter on line 108: non-empty lines shorter than
120 characters are the candidate header/footer lines counted by the
`Counter`. -/
def hfCandidate (l : List Char) : Bool :=
  !l.isEmpty && decide (l.length < 120)

/-- Function `remove_common_headers_footers` (lines 105–112): drop every line
that occurs at least `threshold` times among the non-empty lines
shorter than 120 characters; if no line reaches the threshold the text
is returned unchanged.  (Membership of a line of `text` in the Python
set `common` is `hfCandidate ln && threshold ≤ count`, counting inside
the filtered list exactly as the `Counter` does.) -/
def remove_common_headers_footers (t : List Char) (threshold : Nat) : List Char :=
  let lines := splitNl t
  let cands := lines.filter hfCandidate
  if cands.all (fun ln => decide (cands.count ln < threshold)) then t
  else joinNl
    (lines.filter (fun ln => !(hfCandidate ln && decide (threshold ≤ cands.count ln))))

/-! ## The chunker `chunk_text` (lines 114–165) -/

/-- A `(start, end, text)` triple as appended on line 154.  `stop` is
the Python variable `end` (a Lean keyword). -/
structure Chunk where
  start : Nat
  stop : Nat
  text : List Char
deriving DecidableEq, Repr

/-- Lines 123–125: `if overlap >= chunk_size: overlap = max(0, chunk_size // 4)`
(Python `//` is floor division). -/
def clampOverlap (chunkSize overlap : Int) : Int :=
  if chunkSize ≤ overlap then max 0 (Int.fdiv chunkSize 4) else overlap

/-- Backtracking of the greedy `\s+` of the boundary regex at a fixed
match start: the punctuation mark sits at index `i` of `l`, at least
`m` whitespace characters follow it, and we look for the largest
`1 ≤ k ≤ m` such that the character at index `i + 1 + k` satisfies the
lookahead class.  Returns `m.end()` of the Python match, the index of
the lookahead character itself. -/
def greedyEnd (l : List Char) (i : Nat) : Nat → Option Nat
  | 0 => none
  | m + 1 =>
    match l[i + 1 + (m + 1)]? with
    | some c => if isNextClass c then some (i + 1 + (m + 1)) else greedyEnd l i m
    | none => greedyEnd l i m

/-- Leftmost search for `[.!?]\s+(?=[A-Z(“"'])` (line 139): scan for
the first punctuation mark from which the greedy whitespace run can be
completed; `rest` is `l.drop i`.  Returns `m.end()`. -/
def reSearchAux (l : List Char) : Nat → List Char → Option Nat
  | _, [] => none
  | i, c :: rest =>
    if isPunct c then
      match greedyEnd l i ((rest.takeWhile isPySpace).length) with
      | some j => some j
      | none => reSearchAux l (i + 1) rest
    else reSearchAux l (i + 1) rest

/-- Python `re.search(r"[.!?]\s+(?=[A-Z(“\"'])", tail)`, returning `m.end()`
when a match exists. -/
def reSearchEnd (l : List Char) : Option Nat := reSearchAux l 0 l

/-- Line 133: the naive window end `end = min(start + chunk_size, n)`. -/
def naiveEndI (text : List Char) (chunkSize : Int) (start : Nat) : Int :=
  min ((start : Int) + chunkSize) (text.length : Int)

/-- Line 134: `snippet = text[start:end]` for the naive `end`. -/
def theSnippet (text : List Char) (chunkSize : Int) (start : Nat) : List Char :=
  pySlice text start (naiveEndI text chunkSize start)

/-- Line 137: `tail = snippet[-tail_span:] if len(snippet) > tail_span else snippet`
with `tail_span = 120`. -/
def theTail (s : List Char) : List Char :=
  if 120 < s.length then s.drop (s.length - 120) else s

/-- Lines 139–147: the value of `end` after the boundary-refinement
step: when the regex matches, `proposed_end = start + len(snippet) -
(len(tail) - m.end())` replaces the naive end exactly if
`start < proposed_end <= n`. -/
def refineEnd (text : List Char) (chunkSize : Int) (start : Nat) : Int :=
  let snippet := theSnippet text chunkSize start
  let tail := theTail snippet
  match reSearchEnd tail with
  | some mEnd =>
    let proposed : Int := (start : Int) + snippet.length - ((tail.length : Int) - mEnd)
    if (start : Int) < proposed ∧ proposed ≤ (text.length : Int) then proposed
    else naiveEndI text chunkSize start
  | none => naiveEndI text chunkSize start

/-- Lines 133–152: the final value of the Python variable `end` for the
window starting at `start`, including the forward-progress fallback of
lines 150–152 (`end = min(start + max(1, chunk_size), n)` whenever the
refined end does not advance past `start`). -/
def windowEnd (text : List Char) (chunkSize : Int) (start : Nat) : Nat :=
  if refineEnd text chunkSize start ≤ (start : Int) then
    (min ((start : Int) + max 1 chunkSize) (text.length : Int)).toNat
  else (refineEnd text chunkSize start).toNat

/-- Lines 159–163: next window start `end - overlap`, forced to
`start + 1` whenever that would not advance. -/
def nextStart (overlap : Int) (start e : Nat) : Nat :=
  if (e : Int) - overlap ≤ (start : Int) then start + 1
  else ((e : Int) - overlap).toNat

/-- The `while start < n` loop of lines 132–163.  Each iteration emits
exactly one triple; in every branch of the source the emitted `snippet`
equals `text[start:end]` for the final value of `end` (it is re-sliced
whenever `end` changes), so the body emits
`(start, end, text[start:end].strip())`.  `fuel` is a structural bound
on the number of iterations; `chunk_text` passes `length text`, which
is proved sufficient (`chunkLoop_fuel_irrel`). -/
def chunkLoop (text : List Char) (chunkSize overlap : Int) : Nat → Nat → List Chunk
  | 0, _ => []
  | fuel + 1, start =>
    if start < text.length then
      let e := windowEnd text chunkSize start
      let c : Chunk := ⟨start, e, pyStrip (sliceNat text start e)⟩
      if text.length ≤ e then [c]
      else c :: chunkLoop text chunkSize overlap fuel (nextStart overlap start e)
    else []

/-- Function `chunk_text` (lines 114–165). -/
def chunk_text (text : List Char) (chunkSize overlap : Int) : List Chunk :=
  if text.isEmpty then []
  else chunkLoop text chunkSize (clampOverlap chunkSize overlap) text.length 0

/-- The ids given to one document's chunk records by `main`
(lines 235–248): `cid = str(uuid.uuid4())` draws a fresh value from the
process's entropy source for every record; we model the entropy source
of one run as a function from draw index to drawn identifier. -/
def recordIds (entropy : Nat → Nat) (chunks : List Chunk) : List Nat :=
  (List.range chunks.length).map entropy

/-! ## Basic facts about the window computation -/

lemma naiveEndI_le (t : List Char) (cs : Int) (s : Nat) :
    naiveEndI t cs s ≤ (t.length : Int) := by
  unfold naiveEndI; omega

lemma refineEnd_le (t : List Char) (cs : Int) (s : Nat) :
    refineEnd t cs s ≤ (t.length : Int) := by
  unfold refineEnd
  cases h : reSearchEnd (theTail (theSnippet t cs s)) with
  | none => simp only [h]; exact naiveEndI_le t cs s
  | some mEnd =>
    simp only [h]
    have := naiveEndI_le t cs s
    split <;> omega

lemma windowEnd_lt (t : List Char) (cs : Int) (s : Nat) (h : s < t.length) :
    s < windowEnd t cs s ∧ windowEnd t cs s ≤ t.length := by
  unfold windowEnd
  have h1 := refineEnd_le t cs s
  split
  · have hmax : (1 : Int) ≤ max 1 cs := le_max_left 1 cs
    constructor <;> omega
  · constructor <;> omega

lemma nextStart_gt (ov : Int) (s e : Nat) : s < nextStart ov s e := by
  unfold nextStart; split <;> omega

lemma nextStart_le (ov : Int) (s e : Nat) (hov : 0 ≤ ov) (hse : s < e) :
    nextStart ov s e ≤ e := by
  unfold nextStart; split <;> omega

/-! ## Soundness of the boundary-regex search -/

lemma takeWhile_sound {α : Type} {P : α → Bool} :
    ∀ (xs : List α) (q : Nat), q < (xs.takeWhile P).length →
      ∃ w, xs[q]? = some w ∧ P w = true := by
  intro xs
  induction xs with
  | nil => intro q hq; simp at hq
  | cons x xs ih =>
    intro q hq
    by_cases hx : P x
    · rw [List.takeWhile_cons_of_pos hx] at hq
      cases q with
      | zero => exact ⟨x, by simp, hx⟩
      | succ q =>
        obtain ⟨w, hw, hPw⟩ := ih q (by simpa using hq)
        exact ⟨w, by simpa using hw, hPw⟩
    · rw [List.takeWhile_cons_of_neg hx] at hq
      simp at hq

lemma greedyEnd_sound {l : List Char} {i j : Nat} :
    ∀ m, greedyEnd l i m = some j →
      ∃ k, 1 ≤ k ∧ k ≤ m ∧ j = i + 1 + k ∧
        ∃ c, l[j]? = some c ∧ isNextClass c = true := by
  intro m
  induction m with
  | zero => intro h; simp [greedyEnd] at h
  | succ m ih =>
    intro h
    cases hc : l[i + 1 + (m + 1)]? with
    | none =>
      simp only [greedyEnd, hc] at h
      obtain ⟨k, h1, h2, h3, hrest⟩ := ih h
      exact ⟨k, h1, Nat.le_succ_of_le h2, h3, hrest⟩
    | some c =>
      simp only [greedyEnd, hc] at h
      by_cases hcl : isNextClass c
      · rw [if_pos hcl] at h
        obtain rfl : i + 1 + (m + 1) = j := Option.some.inj h
        exact ⟨m + 1, Nat.succ_le_succ (Nat.zero_le m), le_rfl, rfl, c, hc, hcl⟩
      · rw [if_neg hcl] at h
        obtain ⟨k, h1, h2, h3, hrest⟩ := ih h
        exact ⟨k, h1, Nat.le_succ_of_le h2, h3, hrest⟩

lemma reSearchAux_sound {l : List Char} {j : Nat} :
    ∀ (rest : List Char) (i : Nat), rest = l.drop i → reSearchAux l i rest = some j →
      ∃ a k, 1 ≤ k ∧ j = a + 1 + k ∧
        (∃ cp, l[a]? = some cp ∧ isPunct cp = true) ∧
        (∀ q, 1 ≤ q → q ≤ k → ∃ w, l[a + q]? = some w ∧ isPySpace w = true) ∧
        ∃ c, l[j]? = some c ∧ isNextClass c = true := by
  intro rest
  induction rest with
  | nil => intro i _ h; simp [reSearchAux] at h
  | cons x rest ih =>
    intro i hdrop h
    have hxi : l[i]? = some x := by
      have : (l.drop i)[0]? = some x := by rw [← hdrop]; simp
      simpa using this
    have hrest : rest = l.drop (i + 1) := by
      have : (l.drop i).tail = l.drop (i + 1) := by
        rw [← List.drop_drop]; simp
      rw [← this, ← hdrop]
      rfl
    by_cases hx : isPunct x
    · rw [reSearchAux, if_pos hx] at h
      cases hg : greedyEnd l i ((rest.takeWhile isPySpace).length) with
      | none =>
        rw [hg] at h
        exact ih (i + 1) hrest h
      | some j' =>
        rw [hg] at h
        obtain rfl : j' = j := Option.some.inj h
        obtain ⟨k, hk1, hk2, hk3, hclass⟩ := greedyEnd_sound _ hg
        refine ⟨i, k, hk1, hk3, ⟨x, hxi, hx⟩, ?_, hclass⟩
        intro q hq1 hq2
        obtain ⟨w, hw, hPw⟩ := takeWhile_sound (P := isPySpace) rest (q - 1)
          (by omega)
        refine ⟨w, ?_, hPw⟩
        rw [hrest] at hw
        rw [List.getElem?_drop] at hw
        rw [← hw]
        congr 1
        omega
    · rw [reSearchAux, if_neg hx] at h
      exact ih (i + 1) hrest h

lemma reSearchEnd_sound {l : List Char} {j : Nat} (h : reSearchEnd l = some j) :
    ∃ a k, 1 ≤ k ∧ j = a + 1 + k ∧
      (∃ cp, l[a]? = some cp ∧ isPunct cp = true) ∧
      (∀ q, 1 ≤ q → q ≤ k → ∃ w, l[a + q]? = some w ∧ isPySpace w = true) ∧
      ∃ c, l[j]? = some c ∧ isNextClass c = true :=
  reSearchAux_sound l 0 (by simp) h

lemma reSearchEnd_lt_length {l : List Char} {j : Nat} (h : reSearchEnd l = some j) :
    j < l.length := by
  obtain ⟨a, k, _, _, _, _, c, hc, _⟩ := reSearchEnd_sound h
  exact (List.getElem?_eq_some_iff.mp hc).1

/-! ## The window never exceeds the target size -/

lemma naiveEndI_toNat (t : List Char) (cs : Int) (s : Nat) (hcs : 1 ≤ cs) :
    (naiveEndI t cs s).toNat = min (s + cs.toNat) t.length := by
  unfold naiveEndI; omega

lemma theSnippet_length (t : List Char) (cs : Int) (s : Nat) (hcs : 1 ≤ cs) :
    (theSnippet t cs s).length = (naiveEndI t cs s).toNat - s := by
  unfold theSnippet pySlice pySliceEnd
  have h0 : (0 : Int) ≤ naiveEndI t cs s := by unfold naiveEndI; omega
  have hn : naiveEndI t cs s ≤ (t.length : Int) := naiveEndI_le t cs s
  rw [if_neg (by omega)]
  simp only [List.length_drop, List.length_take]
  omega

lemma theTail_length (x : List Char) :
    (theTail x).length = min 120 x.length := by
  unfold theTail; split <;> simp <;> omega

lemma theTail_getElem (x : List Char) (q : Nat) :
    (theTail x)[q]? = x[(x.length - (theTail x).length) + q]? := by
  unfold theTail
  split
  · have h120 : x.length - (x.drop (x.length - 120)).length + q = x.length - 120 + q := by
      simp only [List.length_drop]; omega
    rw [h120, List.getElem?_drop]
  · simp

lemma theSnippet_getElem (t : List Char) (cs : Int) (s : Nat) (q : Nat) (hcs : 1 ≤ cs)
    (hq : q < (theSnippet t cs s).length) :
    (theSnippet t cs s)[q]? = t[s + q]? := by
  have hlen := theSnippet_length t cs s hcs
  unfold theSnippet pySlice pySliceEnd at *
  have h0 : (0 : Int) ≤ naiveEndI t cs s := by unfold naiveEndI; omega
  rw [if_neg (by omega)] at *
  rw [List.getElem?_drop, List.getElem?_take_of_lt]
  simp only [List.length_drop, List.length_take] at hq
  omega

lemma refineEnd_le_naive (t : List Char) (cs : Int) (s : Nat) (hcs : 1 ≤ cs)
    (hs : s < t.length) :
    refineEnd t cs s ≤ naiveEndI t cs s := by
  unfold refineEnd
  cases h : reSearchEnd (theTail (theSnippet t cs s)) with
  | none => simp only [h]; exact le_rfl
  | some mEnd =>
    simp only [h]
    have hm := reSearchEnd_lt_length h
    have hsnip := theSnippet_length t cs s hcs
    have htail : (theTail (theSnippet t cs s)).length ≤ (theSnippet t cs s).length := by
      rw [theTail_length]; omega
    have h0 : (0 : Int) ≤ naiveEndI t cs s := by unfold naiveEndI; omega
    have hge : s < (naiveEndI t cs s).toNat := by unfold naiveEndI; omega
    split <;> omega

lemma windowEnd_le_size (t : List Char) (cs : Int) (s : Nat) (hcs : 1 ≤ cs)
    (hs : s < t.length) :
    (windowEnd t cs s : Int) ≤ (s : Int) + cs := by
  unfold windowEnd
  have h1 := refineEnd_le_naive t cs s hcs hs
  have h2 : naiveEndI t cs s ≤ (s : Int) + cs := by unfold naiveEndI; omega
  have hmax : max 1 cs = cs := max_eq_right hcs
  split
  · rw [hmax]; omega
  · omega

/-- One unfolding of the loop when the window is non-empty: an
iteration always appends its chunk, then either breaks (`end >= n`) or
continues from the next start. -/
lemma chunkLoop_cons (t : List Char) (cs ov : Int) (fuel s : Nat) (h : s < t.length) :
    chunkLoop t cs ov (fuel + 1) s =
      ⟨s, windowEnd t cs s, pyStrip (sliceNat t s (windowEnd t cs s))⟩ ::
        (if t.length ≤ windowEnd t cs s then []
         else chunkLoop t cs ov fuel (nextStart ov s (windowEnd t cs s))) := by
  simp only [chunkLoop, if_pos h]
  split <;> rfl

lemma chunkLoop_nil (t : List Char) (cs ov : Int) (fuel s : Nat) (h : ¬s < t.length) :
    chunkLoop t cs ov fuel s = [] := by
  cases fuel with
  | zero => rfl
  | succ fuel => simp only [chunkLoop, if_neg h]

lemma chunkLoop_head?_start (t : List Char) (cs ov : Int) :
    ∀ fuel s c, (chunkLoop t cs ov fuel s).head? = some c → c.start = s := by
  intro fuel s c h
  cases fuel with
  | zero => simp [chunkLoop] at h
  | succ fuel =>
    by_cases hs : s < t.length
    · rw [chunkLoop_cons t cs ov fuel s hs] at h
      obtain rfl : _ = c := Option.some.inj h
      rfl
    · rw [chunkLoop_nil t cs ov _ s hs] at h
      simp at h

lemma chunkLoop_length (t : List Char) (cs ov : Int) :
    ∀ fuel s, (chunkLoop t cs ov fuel s).length ≤ t.length - s := by
  intro fuel
  induction fuel with
  | zero => intro s; simp [chunkLoop]
  | succ fuel ih =>
    intro s
    by_cases hs : s < t.length
    · rw [chunkLoop_cons t cs ov fuel s hs]
      split
      · simp; omega
      · have h1 := ih (nextStart ov s (windowEnd t cs s))
        have h2 := nextStart_gt ov s (windowEnd t cs s)
        simp only [List.length_cons]
        omega
    · rw [chunkLoop_nil t cs ov _ s hs]; simp

lemma chunkLoop_mem (t : List Char) (cs ov : Int) :
    ∀ fuel s c, c ∈ chunkLoop t cs ov fuel s →
      s ≤ c.start ∧ c.start < t.length ∧
        c = ⟨c.start, windowEnd t cs c.start,
             pyStrip (sliceNat t c.start (windowEnd t cs c.start))⟩ := by
  intro fuel
  induction fuel with
  | zero => intro s c h; simp [chunkLoop] at h
  | succ fuel ih =>
    intro s c h
    by_cases hs : s < t.length
    · rw [chunkLoop_cons t cs ov fuel s hs] at h
      rcases List.mem_cons.mp h with rfl | h
      · exact ⟨le_rfl, hs, rfl⟩
      · split at h
        · simp at h
        · obtain ⟨h1, h2, h3⟩ := ih _ c h
          have := nextStart_gt ov s (windowEnd t cs s)
          exact ⟨by omega, h2, h3⟩
    · rw [chunkLoop_nil t cs ov _ s hs] at h
      simp at h

lemma chunkLoop_chain_mono (t : List Char) (cs ov : Int) :
    ∀ fuel s, List.Chain' (fun c c' => c.start < c'.start) (chunkLoop t cs ov fuel s) := by
  intro fuel
  induction fuel with
  | zero => intro s; simp [chunkLoop]
  | succ fuel ih =>
    intro s
    by_cases hs : s < t.length
    · rw [chunkLoop_cons t cs ov fuel s hs]
      rw [List.chain'_cons']
      constructor
      · intro b hb
        split at hb
        · simp at hb
        · have hb' := chunkLoop_head?_start t cs ov fuel _ b hb
          have := nextStart_gt ov s (windowEnd t cs s)
          simp only [hb']
          omega
      · split
        · simp
        · exact ih _
    · rw [chunkLoop_nil t cs ov _ s hs]; simp

lemma chunkLoop_chain_gap (t : List Char) (cs ov : Int) (hov : 0 ≤ ov) :
    ∀ fuel s, List.Chain' (fun c c' => c'.start ≤ c.stop) (chunkLoop t cs ov fuel s) := by
  intro fuel
  induction fuel with
  | zero => intro s; simp [chunkLoop]
  | succ fuel ih =>
    intro s
    by_cases hs : s < t.length
    · rw [chunkLoop_cons t cs ov fuel s hs]
      rw [List.chain'_cons']
      constructor
      · intro b hb
        split at hb
        · simp at hb
        · have hb' := chunkLoop_head?_start t cs ov fuel _ b hb
          have h1 := (windowEnd_lt t cs s hs).1
          have h2 := nextStart_le ov s (windowEnd t cs s) hov h1
          simp only [hb']
          exact h2
      · split
        · simp
        · exact ih _
    · rw [chunkLoop_nil t cs ov _ s hs]; simp

lemma nextStart_overlap (ov : Int) (s e : Nat) :
    (e : Int) - (nextStart ov s e : Int) ≤ max ov 1 := by
  unfold nextStart; split <;> omega

lemma chunkLoop_chain_overlap (t : List Char) (cs ov : Int) :
    ∀ fuel s, List.Chain' (fun c c' => (c.stop : Int) - (c'.start : Int) ≤ max ov 1)
      (chunkLoop t cs ov fuel s) := by
  intro fuel
  induction fuel with
  | zero => intro s; simp [chunkLoop]
  | succ fuel ih =>
    intro s
    by_cases hs : s < t.length
    · rw [chunkLoop_cons t cs ov fuel s hs]
      rw [List.chain'_cons']
      constructor
      · intro b hb
        split at hb
        · simp at hb
        · have hb' := chunkLoop_head?_start t cs ov fuel _ b hb
          simp only [hb']
          exact nextStart_overlap ov s (windowEnd t cs s)
      · split
        · simp
        · exact ih _
    · rw [chunkLoop_nil t cs ov _ s hs]; simp

lemma chunkLoop_cover (t : List Char) (cs ov : Int) (hov : 0 ≤ ov) :
    ∀ fuel s, t.length - s ≤ fuel → ∀ p, s ≤ p → p < t.length →
      ∃ c ∈ chunkLoop t cs ov fuel s, c.start ≤ p ∧ p < c.stop := by
  intro fuel
  induction fuel with
  | zero => intro s hfuel p h1 h2; omega
  | succ fuel ih =>
    intro s hfuel p h1 h2
    have hs : s < t.length := by omega
    rw [chunkLoop_cons t cs ov fuel s hs]
    have hwlt := windowEnd_lt t cs s hs
    by_cases he : t.length ≤ windowEnd t cs s
    · rw [if_pos he]
      exact ⟨_, List.mem_singleton_self _, h1, show p < windowEnd t cs s by omega⟩
    · rw [if_neg he]
      by_cases hp : p < windowEnd t cs s
      · exact ⟨_, List.mem_cons_self _ _, h1, hp⟩
      · have hnle := nextStart_le ov s (windowEnd t cs s) hov hwlt.1
        have hngt := nextStart_gt ov s (windowEnd t cs s)
        obtain ⟨c, hc, hc1, hc2⟩ :=
          ih (nextStart ov s (windowEnd t cs s)) (by omega) p (by omega) h2
        exact ⟨c, List.mem_cons_of_mem _ hc, hc1, hc2⟩

lemma clampOverlap_nonneg (cs ov : Int) (hov : 0 ≤ ov) : 0 ≤ clampOverlap cs ov := by
  unfold clampOverlap; split
  · exact le_max_left 0 _
  · exact hov

lemma chunk_text_ne_empty (t : List Char) (cs ov : Int) (ht : t ≠ []) :
    chunk_text t cs ov = chunkLoop t cs (clampOverlap cs ov) t.length 0 := by
  unfold chunk_text
  rw [if_neg (by simpa using ht)]

/-- C2: for every text, every `target_size > 0` and any `overlap`,
`chunk_text` terminates after at most `len(text)` loop iterations (each
iteration emits exactly one chunk, so the chunk count equals the
iteration count), and the `start_offset`s of the returned chunks are
strictly increasing.  (In this model termination is structural: the
loop is run with `len(text)` fuel, `chunkLoop_length` showing the fuel
bound is respected.) -/
theorem chunk_text_termination (t : List Char) (cs ov : Int) (hcs : 0 < cs) :
    (chunk_text t cs ov).length ≤ t.length ∧
      List.Chain' (fun c c' => c.start < c'.start) (chunk_text t cs ov) := by
  by_cases ht : t = []
  · subst ht; simp [chunk_text]
  · rw [chunk_text_ne_empty t cs ov ht]
    refine ⟨?_, chunkLoop_chain_mono t cs _ t.length 0⟩
    have := chunkLoop_length t cs (clampOverlap cs ov) t.length 0
    omega

theorem chunk_text_termination_witness :
    (0 : Int) < 1 ∧
      ((chunk_text "ab".toList 1 0).length ≤ "ab".toList.length ∧
        List.Chain' (fun c c' => c.start < c'.start) (chunk_text "ab".toList 1 0)) :=
  ⟨by decide, chunk_text_termination "ab".toList 1 0 (by decide)⟩

/-- C1 (amended: `overlap ≥ 0` added): for non-empty text,
`target_size > 0` and non-negative `overlap`, the chunk ranges cover
`[0, len(text))` exactly — every position lies in some chunk, every
chunk ends within the text, and consecutive chunks satisfy
`next.start_offset ≤ current.end_offset` (the inter-chunk overlap is
never negative). -/
theorem chunk_text_coverage (t : List Char) (cs ov : Int) (ht : t ≠ [])
    (hcs : 0 < cs) (hov : 0 ≤ ov) :
    (∀ p, p < t.length → ∃ c ∈ chunk_text t cs ov, c.start ≤ p ∧ p < c.stop) ∧
      (∀ c ∈ chunk_text t cs ov, c.stop ≤ t.length) ∧
      List.Chain' (fun c c' => c'.start ≤ c.stop) (chunk_text t cs ov) := by
  rw [chunk_text_ne_empty t cs ov ht]
  have hclamp := clampOverlap_nonneg cs ov hov
  refine ⟨?_, ?_, chunkLoop_chain_gap t cs _ hclamp t.length 0⟩
  · intro p hp
    exact chunkLoop_cover t cs _ hclamp t.length 0 (by omega) p (Nat.zero_le p) hp
  · intro c hc
    obtain ⟨-, h2, h3⟩ := chunkLoop_mem t cs _ t.length 0 c hc
    rcases c with ⟨a, b, txt⟩
    simp only [Chunk.mk.injEq] at h3
    obtain ⟨-, rfl, -⟩ := h3
    exact (windowEnd_lt t cs a h2).2

theorem chunk_text_coverage_witness :
    ("ab".toList ≠ [] ∧ (0 : Int) < 2 ∧ (0 : Int) ≤ 0) ∧
      ((∀ p, p < "ab".toList.length →
          ∃ c ∈ chunk_text "ab".toList 2 0, c.start ≤ p ∧ p < c.stop) ∧
        (∀ c ∈ chunk_text "ab".toList 2 0, c.stop ≤ "ab".toList.length) ∧
        List.Chain' (fun c c' => c'.start ≤ c.stop) (chunk_text "ab".toList 2 0)) :=
  ⟨⟨by decide, by decide, by decide⟩,
    chunk_text_coverage "ab".toList 2 0 (by decide) (by decide) (by decide)⟩

/-- C1 fails as stated (no restriction on `overlap`): with the
non-empty text `"abcd"`, `target_size = 1 > 0` and `overlap = -1`, the
returned chunks are `[(0,1), (2,3)]`: position `1` is covered by no
chunk and the second chunk starts after the first one ends, so the
union of ranges has gaps and the inter-chunk overlap is negative. -/
theorem chunk_text_coverage_cex :
    chunk_text "abcd".toList 1 (-1) = [⟨0, 1, ['a']⟩, ⟨2, 3, ['c']⟩] ∧
      ¬(∀ p, p < "abcd".toList.length →
          ∃ c ∈ chunk_text "abcd".toList 1 (-1), c.start ≤ p ∧ p < c.stop) ∧
      ¬List.Chain' (fun c c' => c'.start ≤ c.stop) (chunk_text "abcd".toList 1 (-1)) := by
  have h : chunk_text "abcd".toList 1 (-1) = [⟨0, 1, ['a']⟩, ⟨2, 3, ['c']⟩] := by decide
  refine ⟨h, by decide, ?_⟩
  rw [h]
  intro hch
  exact (by decide : ¬(2 ≤ 1)) (List.chain'_cons.mp hch).1

/-- C4: for every pair of consecutive chunks,
`current.end_offset - next.start_offset ≤ max(overlap, 1)` where
`overlap` is the value after the clamping rule (`clampOverlap`) has
been applied.  This holds for all inputs, with no hypotheses. -/
theorem chunk_text_bounded_overlap (t : List Char) (cs ov : Int) :
    List.Chain' (fun c c' => (c.stop : Int) - (c'.start : Int) ≤ max (clampOverlap cs ov) 1)
      (chunk_text t cs ov) := by
  by_cases ht : t = []
  · subst ht; simp [chunk_text]
  · rw [chunk_text_ne_empty t cs ov ht]
    exact chunkLoop_chain_overlap t cs _ t.length 0

/-- C5: whenever `overlap ≥ target_size`, `chunk_text` behaves exactly
as if `overlap` had been replaced by `max(0, target_size // 4)` (floor
division).  In particular `chunk(text, 100, 500)` behaves as if
`overlap` were `25`. -/
theorem chunk_text_degenerate_overlap (t : List Char) (cs ov : Int) (h : cs ≤ ov) :
    chunk_text t cs ov = chunk_text t cs (max 0 (Int.fdiv cs 4)) := by
  have h1 : clampOverlap cs ov = max 0 (Int.fdiv cs 4) := by
    unfold clampOverlap; rw [if_pos h]
  have h2 : clampOverlap cs (max 0 (Int.fdiv cs 4)) = max 0 (Int.fdiv cs 4) := by
    unfold clampOverlap; split <;> rfl
  unfold chunk_text
  rw [h1, h2]

theorem chunk_text_degenerate_overlap_witness :
    (100 : Int) ≤ 500 ∧
      chunk_text "Aa. Bcd efg".toList 100 500 = chunk_text "Aa. Bcd efg".toList 100 25 := by
  refine ⟨by decide, ?_⟩
  have h25 : (25 : Int) = max 0 (Int.fdiv 100 4) := by decide
  rw [h25]
  exact chunk_text_degenerate_overlap "Aa. Bcd efg".toList 100 500 (by decide)

/-- C6: on non-empty input with `target_size > 0`, every returned chunk
satisfies `0 ≤ start_offset < end_offset ≤ len(source)` (the lower
bound holds by the `Nat` type of offsets) and its `text` field equals
`source[start_offset:end_offset]` with leading/trailing whitespace
stripped — the offsets referencing the untrimmed slice. -/
theorem chunk_text_offsets_text (t : List Char) (cs ov : Int) (ht : t ≠ [])
    (hcs : 0 < cs) :
    ∀ c ∈ chunk_text t cs ov,
      c.start < c.stop ∧ c.stop ≤ t.length ∧
        c.text = pyStrip (sliceNat t c.start c.stop) := by
  intro c hc
  rw [chunk_text_ne_empty t cs ov ht] at hc
  obtain ⟨-, h2, h3⟩ := chunkLoop_mem t cs _ t.length 0 c hc
  rcases c with ⟨a, b, txt⟩
  simp only [Chunk.mk.injEq] at h3
  obtain ⟨-, rfl, rfl⟩ := h3
  have hw := windowEnd_lt t cs a h2
  exact ⟨hw.1, hw.2, rfl⟩

theorem chunk_text_offsets_text_witness :
    ("a".toList ≠ [] ∧ (0 : Int) < 1) ∧
      (∀ c ∈ chunk_text "a".toList 1 0,
        c.start < c.stop ∧ c.stop ≤ "a".toList.length ∧
          c.text = pyStrip (sliceNat "a".toList c.start c.stop)) :=
  ⟨⟨by decide, by decide⟩, chunk_text_offsets_text "a".toList 1 0 (by decide) (by decide)⟩

/-- C8: for every `target_size` and `overlap` (including degenerate
values), `chunk_text` applied to the empty string returns the empty
sequence, raising no error (the model is a total function); in
particular `chunk("", 1200, 200) = []`. -/
theorem chunk_text_empty_input (cs ov : Int) : chunk_text [] cs ov = [] := rfl

/-- C10: for every text and `target_size ≥ 1`, every returned chunk
satisfies `end_offset - start_offset ≤ target_size` — boundary
refinement only ever shortens the naive window, never lengthens it. -/
theorem chunk_text_size_invariant (t : List Char) (cs ov : Int) (hcs : 1 ≤ cs) :
    ∀ c ∈ chunk_text t cs ov, (c.stop : Int) ≤ (c.start : Int) + cs := by
  intro c hc
  by_cases ht : t = []
  · subst ht; simp [chunk_text] at hc
  · rw [chunk_text_ne_empty t cs ov ht] at hc
    obtain ⟨-, h2, h3⟩ := chunkLoop_mem t cs _ t.length 0 c hc
    rcases c with ⟨a, b, txt⟩
    simp only [Chunk.mk.injEq] at h3
    obtain ⟨-, rfl, -⟩ := h3
    exact windowEnd_le_size t cs a hcs h2

theorem chunk_text_size_invariant_witness :
    (1 : Int) ≤ 2 ∧
      (∀ c ∈ chunk_text "abc".toList 2 0, (c.stop : Int) ≤ (c.start : Int) + 2) :=
  ⟨by decide, chunk_text_size_invariant "abc".toList 2 0 (by decide)⟩

lemma tail_abs_getElem (t : List Char) (cs : Int) (start q : Nat) (hcs : 1 ≤ cs)
    (hq : q < (theTail (theSnippet t cs start)).length) :
    (theTail (theSnippet t cs start))[q]? =
      t[start + ((theSnippet t cs start).length - (theTail (theSnippet t cs start)).length + q)]? := by
  rw [theTail_getElem]
  have hlen : (theTail (theSnippet t cs start)).length ≤ (theSnippet t cs start).length := by
    rw [theTail_length]; omega
  exact theSnippet_getElem t cs start _ hcs (by omega)

lemma refineEnd_char (t : List Char) (cs : Int) (start : Nat) :
    refineEnd t cs start = naiveEndI t cs start ∨
      ∃ mEnd, reSearchEnd (theTail (theSnippet t cs start)) = some mEnd ∧
        (start : Int) < (start : Int) + (theSnippet t cs start).length -
          (((theTail (theSnippet t cs start)).length : Int) - mEnd) ∧
        (start : Int) + (theSnippet t cs start).length -
          (((theTail (theSnippet t cs start)).length : Int) - mEnd) ≤ (t.length : Int) ∧
        refineEnd t cs start = (start : Int) + (theSnippet t cs start).length -
          (((theTail (theSnippet t cs start)).length : Int) - mEnd) := by
  unfold refineEnd
  cases hre : reSearchEnd (theTail (theSnippet t cs start)) with
  | none => left; simp [hre]
  | some mEnd =>
    simp only [hre]
    split
    · next h => exact Or.inr ⟨mEnd, rfl, h.1, h.2, rfl⟩
    · left; rfl

/-- C7: in each window the chunker searches only the last 120
characters of the naive window for a sentence-ending punctuation mark
followed by whitespace and then an uppercase letter or opening
quote/parenthesis, with a zero-width lookahead; the proposed boundary
is accepted only if it strictly exceeds `start` and does not exceed
`len(text)`, otherwise the naive end is kept.  Concretely: the window
end is either the naive end `min(start + target_size, len(text))`, or
an accepted boundary `e` with `start < e ≤` the naive end, where the
character at offset `e` is in the lookahead class (it is *not*
consumed: the chunk is `[start, e)`), preceded by a whitespace run,
preceded by a punctuation mark lying in the last 120 characters of the
naive window. -/
theorem windowEnd_boundary (t : List Char) (cs : Int) (start : Nat)
    (hs : start < t.length) (hcs : 1 ≤ cs) :
    windowEnd t cs start = min (start + cs.toNat) t.length ∨
      (start < windowEnd t cs start ∧ windowEnd t cs start < t.length ∧
        windowEnd t cs start ≤ min (start + cs.toNat) t.length ∧
        (∃ c, t[windowEnd t cs start]? = some c ∧ isNextClass c = true) ∧
        ∃ a, start ≤ a ∧ min (start + cs.toNat) t.length ≤ a + 120 ∧
          a + 1 < windowEnd t cs start ∧
          (∃ cp, t[a]? = some cp ∧ isPunct cp = true) ∧
          ∀ q, a < q → q < windowEnd t cs start →
            ∃ w, t[q]? = some w ∧ isPySpace w = true) := by
  have hNN := naiveEndI_toNat t cs start hcs
  have hsnip := theSnippet_length t cs start hcs
  have h0 : (0 : Int) ≤ naiveEndI t cs start := by unfold naiveEndI; omega
  have hnle := naiveEndI_le t cs start
  have hsl : start < (naiveEndI t cs start).toNat := by unfold naiveEndI; omega
  have htlen : (theTail (theSnippet t cs start)).length =
      min 120 (theSnippet t cs start).length := theTail_length _
  unfold windowEnd
  by_cases hfb : refineEnd t cs start ≤ (start : Int)
  · rw [if_pos hfb]
    left
    have hm : max 1 cs = cs := max_eq_right hcs
    rw [hm]
    unfold naiveEndI at hNN
    omega
  · rw [if_neg hfb]
    rcases refineEnd_char t cs start with heq | ⟨mEnd, hre, hlt, hle, heq⟩
    · left; rw [heq]; exact hNN
    · right
      have hmlt : mEnd < (theTail (theSnippet t cs start)).length := reSearchEnd_lt_length hre
      obtain ⟨a, k, hk1, hkeq, ⟨cp, hcp, hcpP⟩, hws, cc, hcc, hccC⟩ := reSearchEnd_sound hre
      rw [heq]
      -- abbreviations: S = naive window length, off = offset of the tail in the window
      have hoff : ((start : Int) + (theSnippet t cs start).length -
          (((theTail (theSnippet t cs start)).length : Int) - mEnd)).toNat =
          start + ((theSnippet t cs start).length -
            (theTail (theSnippet t cs start)).length + mEnd) := by
        omega
      rw [hoff]
      have habs := fun q hq => tail_abs_getElem t cs start q hcs hq
      refine ⟨by omega, by omega, by omega, ⟨cc, ?_, hccC⟩, ?_⟩
      · rw [← habs mEnd hmlt]; exact hcc
      · refine ⟨start + ((theSnippet t cs start).length -
          (theTail (theSnippet t cs start)).length + a), by omega, by omega, by omega,
          ⟨cp, ?_, hcpP⟩, ?_⟩
        · rw [← habs a (by omega)]; exact hcp
        · intro q hq1 hq2
          obtain ⟨w, hw, hwS⟩ := hws (q - (start + ((theSnippet t cs start).length -
            (theTail (theSnippet t cs start)).length + a))) (by omega) (by omega)
          refine ⟨w, ?_, hwS⟩
          have hidx : q = start + ((theSnippet t cs start).length -
              (theTail (theSnippet t cs start)).length +
              (a + (q - (start + ((theSnippet t cs start).length -
                (theTail (theSnippet t cs start)).length + a))))) := by
            omega
          rw [hidx, ← habs _ (by omega)]
          exact hw

theorem windowEnd_boundary_witness :
    ((0 : Nat) < "Aa. Bcd efg".toList.length ∧ (1 : Int) ≤ 10) ∧
      (windowEnd "Aa. Bcd efg".toList 10 0 =
          min (0 + (10 : Int).toNat) "Aa. Bcd efg".toList.length ∨
        (0 < windowEnd "Aa. Bcd efg".toList 10 0 ∧
          windowEnd "Aa. Bcd efg".toList 10 0 < "Aa. Bcd efg".toList.length ∧
          windowEnd "Aa. Bcd efg".toList 10 0 ≤
            min (0 + (10 : Int).toNat) "Aa. Bcd efg".toList.length ∧
          (∃ c, "Aa. Bcd efg".toList[windowEnd "Aa. Bcd efg".toList 10 0]? = some c ∧
            isNextClass c = true) ∧
          ∃ a, 0 ≤ a ∧
            min (0 + (10 : Int).toNat) "Aa. Bcd efg".toList.length ≤ a + 120 ∧
            a + 1 < windowEnd "Aa. Bcd efg".toList 10 0 ∧
            (∃ cp, "Aa. Bcd efg".toList[a]? = some cp ∧ isPunct cp = true) ∧
            ∀ q, a < q → q < windowEnd "Aa. Bcd efg".toList 10 0 →
              ∃ w, "Aa. Bcd efg".toList[q]? = some w ∧ isPySpace w = true)) :=
  ⟨⟨by decide, by decide⟩, windowEnd_boundary "Aa. Bcd efg".toList 10 0 (by decide) (by decide)⟩

/-- C3 fails on the code: `main` keys each chunk record with
`str(uuid.uuid4())`, a fresh draw from the process entropy, so the
persisted id is not a function of the chunk — two runs over the same
chunks (two entropy sources) produce different id lists. -/
theorem recordIds_not_stable :
    ∃ e₁ e₂ : Nat → Nat,
      recordIds e₁ (chunk_text "ab".toList 1200 200) ≠
        recordIds e₂ (chunk_text "ab".toList 1200 200) :=
  ⟨fun _ => 0, fun _ => 1, by decide⟩

/-! ## Lines, joining and stripping: facts for `normalize_whitespace`
and `remove_common_headers_footers` -/

lemma splitNl_ne_nil : ∀ l : List Char, splitNl l ≠ [] := by
  intro l
  induction l with
  | nil => simp [splitNl]
  | cons c rest ih =>
    unfold splitNl
    split
    · simp
    · cases h : splitNl rest <;> simp

lemma splitNl_mem_noNl : ∀ (l : List Char) (q : List Char), q ∈ splitNl l → '\n' ∉ q := by
  intro l
  induction l with
  | nil => intro q hq; simp [splitNl] at hq; simp [hq]
  | cons c rest ih =>
    intro q hq
    unfold splitNl at hq
    by_cases hc : c = '\n'
    · rw [if_pos hc] at hq
      rcases List.mem_cons.mp hq with rfl | hq
      · simp
      · exact ih q hq
    · rw [if_neg hc] at hq
      cases h : splitNl rest with
      | nil => exact absurd h (splitNl_ne_nil rest)
      | cons a as =>
        rw [h] at hq
        rcases List.mem_cons.mp hq with rfl | hq
        · intro hmem
          rcases List.mem_cons.mp hmem with rfl | hmem
          · exact hc rfl
          · exact ih a (h ▸ List.mem_cons_self a as) hmem
        · exact ih q (h ▸ List.mem_cons_of_mem a hq)

lemma splitNl_single (l : List Char) (h : '\n' ∉ l) : splitNl l = [l] := by
  induction l with
  | nil => rfl
  | cons c rest ih =>
    have hc : ¬c = '\n' := fun hc => h (hc ▸ List.mem_cons_self c rest)
    have hrest : '\n' ∉ rest := fun hm => h (List.mem_cons_of_mem c hm)
    unfold splitNl
    rw [if_neg hc, ih hrest]

lemma splitNl_cons_of_ne (c : Char) (rest : List Char) (hc : ¬c = '\n')
    (a : List Char) (as : List (List Char)) (h : splitNl rest = a :: as) :
    splitNl (c :: rest) = (c :: a) :: as := by
  unfold splitNl
  rw [if_neg hc, h]

lemma splitNl_append_nl (x r : List Char) (hx : '\n' ∉ x) :
    splitNl (x ++ '\n' :: r) = x :: splitNl r := by
  induction x with
  | nil => simp [splitNl]
  | cons c x' ih =>
    have hc : ¬c = '\n' := fun hc => hx (hc ▸ List.mem_cons_self c x')
    have hx' : '\n' ∉ x' := fun hm => hx (List.mem_cons_of_mem c hm)
    simp only [List.cons_append]
    exact splitNl_cons_of_ne c _ hc _ _ (ih hx')

lemma splitNl_joinNl : ∀ ls : List (List Char), ls ≠ [] → (∀ q ∈ ls, '\n' ∉ q) →
    splitNl (joinNl ls) = ls := by
  intro ls
  induction ls with
  | nil => intro h; exact absurd rfl h
  | cons x tl ih =>
    intro _ hq
    cases tl with
    | nil => exact splitNl_single x (hq x (List.mem_cons_self x []))
    | cons y tl' =>
      show splitNl (x ++ '\n' :: joinNl (y :: tl')) = _
      rw [splitNl_append_nl x _ (hq x (List.mem_cons_self x _)),
        ih (by simp) (fun q hmem => hq q (List.mem_cons_of_mem x hmem))]

lemma joinNl_concat : ∀ (ls : List (List Char)) (z : List Char), ls ≠ [] →
    joinNl (ls ++ [z]) = joinNl ls ++ '\n' :: z := by
  intro ls
  induction ls with
  | nil => intro z h; exact absurd rfl h
  | cons x tl ih =>
    intro z _
    cases tl with
    | nil => rfl
    | cons y tl' =>
      show x ++ '\n' :: joinNl ((y :: tl') ++ [z]) = (x ++ '\n' :: joinNl (y :: tl')) ++ '\n' :: z
      rw [ih z (by simp)]
      simp

lemma joinNl_head? (x : List Char) (tl : List (List Char)) (hx : x ≠ []) :
    (joinNl (x :: tl)).head? = x.head? := by
  cases tl with
  | nil => rfl
  | cons y tl' =>
    show (x ++ '\n' :: joinNl (y :: tl')).head? = x.head?
    cases x with
    | nil => exact absurd rfl hx
    | cons c x' => simp

lemma joinNl_getLast? (ls : List (List Char)) (z : List Char) (hz : z ≠ []) :
    (joinNl (ls ++ [z])).getLast? = z.getLast? := by
  cases ls with
  | nil => rfl
  | cons x tl =>
    rw [joinNl_concat (x :: tl) z (by simp)]
    rw [List.getLast?_append_of_ne_nil _ (by simp)]
    cases z with
    | nil => exact absurd rfl hz
    | cons z0 z' => rw [List.getLast?_cons_cons]

lemma dropWhile_head_not {p : Char → Bool} (l : List Char)
    (h : ∀ c, l.head? = some c → p c = false) : l.dropWhile p = l := by
  cases l with
  | nil => rfl
  | cons c rest =>
    exact List.dropWhile_cons_of_neg (by simp [h c rfl])

lemma rdropWhile_last_not_self {p : Char → Bool} (l : List Char)
    (h : ∀ c, l.getLast? = some c → p c = false) : List.rdropWhile p l = l := by
  rw [List.rdropWhile_eq_self_iff]
  intro hl hp
  have := h (l.getLast hl) (List.getLast?_eq_getLast l hl)
  rw [this] at hp
  exact Bool.false_ne_true hp

lemma pyStrip_head? (l : List Char) (c : Char) (h : (pyStrip l).head? = some c) :
    isPySpace c = false := by
  unfold pyStrip at h
  obtain ⟨tail, htail⟩ := List.rdropWhile_prefix isPySpace (l.dropWhile isPySpace)
  have hd : (l.dropWhile isPySpace).head? = some c := by
    rw [← htail, List.head?_append, h]
    rfl
  have hnot := List.head?_dropWhile_not isPySpace l
  rw [hd] at hnot
  exact hnot

lemma pyStrip_getLast? (l : List Char) (c : Char) (h : (pyStrip l).getLast? = some c) :
    isPySpace c = false := by
  unfold pyStrip at h
  have hne : List.rdropWhile isPySpace (l.dropWhile isPySpace) ≠ [] := by
    intro hnil; rw [hnil] at h; simp at h
  have hnot := List.rdropWhile_last_not (l := l.dropWhile isPySpace) (p := isPySpace) hne
  have hlast := List.getLast?_eq_getLast
    (List.rdropWhile isPySpace (l.dropWhile isPySpace)) hne
  rw [h] at hlast
  obtain rfl : _ = c := (Option.some.inj hlast).symm
  exact Bool.eq_false_iff.mpr hnot

lemma pyStrip_subset (l : List Char) : pyStrip l ⊆ l :=
  fun _ hx => (List.dropWhile_suffix isPySpace).subset
    ((List.rdropWhile_prefix _ _).subset hx)

/-- The list of lines after the whole-string `strip()` removes a single
leading blank line, when there is one. -/
def dropLeadBlank : List (List Char) → List (List Char)
  | [] => []
  | x :: rest => if x = [] then rest else x :: rest

/-- The list of lines after the whole-string `strip()` removes a single
trailing blank line, when there is one. -/
def dropTrailBlank (ls : List (List Char)) : List (List Char) :=
  if ls.getLast? = some [] then ls.dropLast else ls

lemma collapseBlankAux_subset :
    ∀ (b : Bool) (ls : List (List Char)), collapseBlankAux b ls ⊆ ls := by
  intro b ls
  induction ls generalizing b with
  | nil => simp [collapseBlankAux]
  | cons ln rest ih =>
    intro x hx
    unfold collapseBlankAux at hx
    by_cases h : ln.isEmpty
    · rw [if_pos h] at hx
      by_cases hb : b
      · subst hb
        rw [if_pos rfl] at hx
        exact List.mem_cons_of_mem ln (ih true hx)
      · rw [if_neg (by simpa using hb)] at hx
        rcases List.mem_cons.mp hx with rfl | hx
        · exact List.mem_cons_self x rest
        · exact List.mem_cons_of_mem ln (ih true hx)
    · rw [if_neg h] at hx
      rcases List.mem_cons.mp hx with rfl | hx
      · exact List.mem_cons_self x rest
      · exact List.mem_cons_of_mem ln (ih false hx)

lemma collapseBlankAux_head?_true :
    ∀ (ls : List (List Char)) (c : List Char),
      (collapseBlankAux true ls).head? = some c → c ≠ [] := by
  intro ls
  induction ls with
  | nil => intro c hc; simp [collapseBlankAux] at hc
  | cons ln rest ih =>
    intro c hc
    unfold collapseBlankAux at hc
    by_cases h : ln.isEmpty
    · rw [if_pos h, if_pos rfl] at hc
      exact ih c hc
    · rw [if_neg h] at hc
      obtain rfl : ln = c := Option.some.inj hc
      simpa using h

lemma collapseBlankAux_chain :
    ∀ (b : Bool) (ls : List (List Char)),
      List.Chain' (fun a c => ¬(a = [] ∧ c = [])) (collapseBlankAux b ls) := by
  intro b ls
  induction ls generalizing b with
  | nil => simp [collapseBlankAux]
  | cons ln rest ih =>
    unfold collapseBlankAux
    by_cases h : ln.isEmpty
    · rw [if_pos h]
      by_cases hb : b
      · subst hb; rw [if_pos rfl]; exact ih true
      · rw [if_neg (by simpa using hb)]
        rw [List.chain'_cons']
        refine ⟨?_, ih true⟩
        intro y hy
        rintro ⟨-, hy'⟩
        exact collapseBlankAux_head?_true rest y hy hy'
    · rw [if_neg h]
      rw [List.chain'_cons']
      refine ⟨?_, ih false⟩
      intro y hy
      rintro ⟨hln, -⟩
      rw [hln] at h
      simp at h

lemma dropLeadBlank_cons (x : List Char) (rest : List (List Char)) :
    dropLeadBlank (x :: rest) = if x = [] then rest else x :: rest := rfl

lemma dropLeadBlank_subset (ls : List (List Char)) : dropLeadBlank ls ⊆ ls := by
  cases ls with
  | nil => simp [dropLeadBlank]
  | cons x rest =>
    rw [dropLeadBlank_cons]
    split
    · exact List.subset_cons_self x rest
    · exact fun a ha => ha

lemma dropLeadBlank_chain {R : List Char → List Char → Prop} (ls : List (List Char))
    (h : List.Chain' R ls) : List.Chain' R (dropLeadBlank ls) := by
  cases ls with
  | nil => exact h
  | cons x rest =>
    rw [dropLeadBlank_cons]
    split
    · exact h.tail
    · exact h

lemma dropTrailBlank_subset (ls : List (List Char)) : dropTrailBlank ls ⊆ ls := by
  unfold dropTrailBlank
  split
  · exact List.dropLast_subset ls
  · exact fun a ha => ha

lemma dropTrailBlank_chain {R : List Char → List Char → Prop} (ls : List (List Char))
    (h : List.Chain' R ls) : List.Chain' R (dropTrailBlank ls) := by
  unfold dropTrailBlank
  split
  · exact h.prefix (List.dropLast_prefix ls)
  · exact h

/-- Front half of the whole-string `strip()` after a `"\n".join`: with
every line starting in a non-space character, the leading whitespace of
the joined string is exactly the newline of a single leading blank
line. -/
lemma dropWhile_joinNl (ls : List (List Char))
    (hhead : ∀ l ∈ ls, ∀ c, l.head? = some c → isPySpace c = false)
    (hchain : List.Chain' (fun a c => ¬(a = [] ∧ c = [])) ls) :
    (joinNl ls).dropWhile isPySpace = joinNl (dropLeadBlank ls) := by
  cases ls with
  | nil => rfl
  | cons x rest =>
    by_cases hx : x = []
    · subst hx
      rw [show dropLeadBlank ([] :: rest) = rest from by
        rw [dropLeadBlank_cons, if_pos rfl]]
      cases rest with
      | nil => rfl
      | cons y tl =>
        have hy : y ≠ [] := by
          have h1 := (List.chain'_cons.mp hchain).1
          intro h; exact h1 ⟨rfl, h⟩
        show List.dropWhile isPySpace ([] ++ '\n' :: joinNl (y :: tl)) = joinNl (y :: tl)
        rw [List.nil_append, List.dropWhile_cons_of_pos (by decide)]
        apply dropWhile_head_not
        intro c hc
        rw [joinNl_head? y tl hy] at hc
        exact hhead y (List.mem_cons_of_mem _ (List.mem_cons_self y tl)) c hc
    · rw [show dropLeadBlank (x :: rest) = x :: rest from by
        rw [dropLeadBlank_cons, if_neg hx]]
      apply dropWhile_head_not
      intro c hc
      rw [joinNl_head? x rest hx] at hc
      exact hhead x (List.mem_cons_self x rest) c hc

lemma chain_concat_last {L : List (List Char)} {z' : List Char}
    (hchain : List.Chain' (fun a c => ¬(a = [] ∧ c = [])) (L ++ [[]]))
    (hlast : L.getLast? = some z') : z' ≠ [] := by
  intro hz
  subst hz
  have h := (List.chain'_append.mp hchain).2.2
  exact h [] hlast [] rfl ⟨rfl, rfl⟩

/-- Back half of the whole-string `strip()` after a `"\n".join`: with
every line ending in a non-space character, the trailing whitespace of
the joined string is exactly the newline of a single trailing blank
line. -/
lemma rdropWhile_joinNl (ls : List (List Char))
    (hlast : ∀ l ∈ ls, ∀ c, l.getLast? = some c → isPySpace c = false)
    (hchain : List.Chain' (fun a c => ¬(a = [] ∧ c = [])) ls) :
    List.rdropWhile isPySpace (joinNl ls) = joinNl (dropTrailBlank ls) := by
  rcases List.eq_nil_or_concat ls with rfl | ⟨L, z, rfl⟩
  · rfl
  · simp only [List.concat_eq_append] at *
    by_cases hz : z = []
    · subst hz
      rw [show dropTrailBlank (L ++ [[]]) = L from by
        unfold dropTrailBlank; rw [if_pos (List.getLast?_concat L), List.dropLast_concat]]
      rcases List.eq_nil_or_concat L with rfl | ⟨L', z', rfl⟩
      · rfl
      · simp only [List.concat_eq_append] at *
        have hz' : z' ≠ [] := chain_concat_last hchain (List.getLast?_concat L')
        rw [joinNl_concat _ _ (by simp)]
        rw [List.rdropWhile_concat_pos _ _ _ (by decide)]
        apply rdropWhile_last_not_self
        intro c hc
        rw [joinNl_getLast? L' z' hz'] at hc
        refine hlast z' ?_ c hc
        exact List.mem_append_left _ (List.mem_append_right _ (List.mem_cons_self z' []))
    · rw [show dropTrailBlank (L ++ [z]) = L ++ [z] from by
        unfold dropTrailBlank
        rw [if_neg (by rw [List.getLast?_concat]; intro h; exact hz (Option.some.inj h))]]
      apply rdropWhile_last_not_self
      intro c hc
      rw [joinNl_getLast? L z hz] at hc
      exact hlast z (List.mem_append_right _ (List.mem_cons_self z [])) c hc

lemma hf_removed (t : List Char) (th : Nat) (ln : List Char)
    (hln : ln ∈ splitNl (remove_common_headers_footers t th))
    (h1 : ln ≠ []) (h2 : ln.length < 120) :
    (splitNl t).count ln < th := by
  have hcand : hfCandidate ln = true := by
    unfold hfCandidate
    simp [h1, h2]
  simp only [remove_common_headers_footers] at hln
  split at hln
  · next hall =>
    have hmem : ln ∈ (splitNl t).filter hfCandidate := List.mem_filter.mpr ⟨hln, hcand⟩
    simp only [List.all_eq_true] at hall
    have h3 := hall ln hmem
    simp only [decide_eq_true_eq] at h3
    rwa [List.count_filter hcand] at h3
  · next =>
    by_cases hk : (splitNl t).filter
        (fun ln => !(hfCandidate ln && decide (th ≤ ((splitNl t).filter hfCandidate).count ln))) = []
    · rw [hk] at hln
      simp [joinNl, splitNl] at hln
      exact absurd hln h1
    · rw [splitNl_joinNl _ hk
        (fun q hq => splitNl_mem_noNl t q (List.mem_filter.mp hq).1)] at hln
      have hcond := (List.mem_filter.mp hln).2
      simp only [hcand, Bool.not_eq_eq_eq_not, Bool.not_true, Bool.and_eq_false_imp,
        decide_eq_false_iff_not, not_le] at hcond
      rw [← List.count_filter (p := hfCandidate) hcand]
      exact hcond trivial

lemma strip_join_lines (out : List (List Char))
    (hnoNl : ∀ l ∈ out, '\n' ∉ l)
    (hhead : ∀ l ∈ out, ∀ c, l.head? = some c → isPySpace c = false)
    (hlast : ∀ l ∈ out, ∀ c, l.getLast? = some c → isPySpace c = false)
    (hchain : List.Chain' (fun a b => ¬(a = [] ∧ b = [])) out) :
    (∀ ln ∈ splitNl (pyStrip (joinNl out)), ln = [] ∨ ln ∈ out) ∧
      List.Chain' (fun a b => ¬(a = [] ∧ b = [])) (splitNl (pyStrip (joinNl out))) := by
  have h1 : pyStrip (joinNl out) = joinNl (dropTrailBlank (dropLeadBlank out)) := by
    unfold pyStrip
    rw [dropWhile_joinNl out hhead hchain]
    exact rdropWhile_joinNl (dropLeadBlank out)
      (fun l hl => hlast l (dropLeadBlank_subset out hl))
      (dropLeadBlank_chain out hchain)
  have hsub : dropTrailBlank (dropLeadBlank out) ⊆ out := fun a ha =>
    dropLeadBlank_subset out (dropTrailBlank_subset _ ha)
  have hchain2 := dropTrailBlank_chain (R := fun a b => ¬(a = [] ∧ b = []))
    (dropLeadBlank out) (dropLeadBlank_chain out hchain)
  rw [h1]
  by_cases h2 : dropTrailBlank (dropLeadBlank out) = []
  · rw [h2]
    constructor
    · intro ln hln
      left
      simpa [joinNl, splitNl] using hln
    · simp [joinNl, splitNl]
  · rw [splitNl_joinNl _ h2 (fun q hq => hnoNl q (hsub hq))]
    exact ⟨fun ln hln => Or.inr (hsub hln), hchain2⟩

lemma normalize_whitespace_lines (t : List Char) :
    (∀ ln ∈ splitNl (normalize_whitespace t), isDigitLine ln = false) ∧
      List.Chain' (fun a b => ¬(a = [] ∧ b = []))
        (splitNl (normalize_whitespace t)) := by
  have hnw : normalize_whitespace t = pyStrip (joinNl (collapseBlankAux false
      (((splitNl (collapseSpTab (normNl t))).map pyStrip).filter
        (fun ln => !(isDigitLine ln))))) := rfl
  set F := ((splitNl (collapseSpTab (normNl t))).map pyStrip).filter
      (fun ln => !(isDigitLine ln)) with hF
  set out := collapseBlankAux false F with hout
  have houtF : out ⊆ F := collapseBlankAux_subset false F
  have hFmem : ∀ l ∈ F, ∃ x, x ∈ splitNl (collapseSpTab (normNl t)) ∧ l = pyStrip x := by
    intro l hl
    obtain ⟨x, hx, hpx⟩ := List.mem_map.mp (List.mem_filter.mp hl).1
    exact ⟨x, hx, hpx.symm⟩
  have hnoNl : ∀ l ∈ out, '\n' ∉ l := by
    intro l hl hmem
    obtain ⟨x, hx, rfl⟩ := hFmem l (houtF hl)
    exact splitNl_mem_noNl _ x hx (pyStrip_subset x hmem)
  have hhead : ∀ l ∈ out, ∀ c, l.head? = some c → isPySpace c = false := by
    intro l hl c hc
    obtain ⟨x, -, rfl⟩ := hFmem l (houtF hl)
    exact pyStrip_head? x c hc
  have hlast : ∀ l ∈ out, ∀ c, l.getLast? = some c → isPySpace c = false := by
    intro l hl c hc
    obtain ⟨x, -, rfl⟩ := hFmem l (houtF hl)
    exact pyStrip_getLast? x c hc
  have hchain := collapseBlankAux_chain false F
  obtain ⟨hmem2, hchain2⟩ := strip_join_lines out hnoNl hhead hlast hchain
  rw [hnw]
  refine ⟨?_, hchain2⟩
  intro ln hln
  rcases hmem2 ln hln with rfl | hln2
  · rfl
  · have hflt := (List.mem_filter.mp (houtF hln2)).2
    simpa using hflt

/-- C9 (amended: a repeated line is removed only when it is shorter
than 120 characters — the `Counter` on line 108 only counts lines with
`len(ln) < 120`): the header/footer cleanup removes every non-empty
line shorter than 120 characters repeating at or above the threshold
(the output contains no such line), and `normalize_whitespace` removes
every line consisting solely of 1–4 digits and collapses runs of blank
lines to at most one. -/
theorem cleanup_normalizer_spec :
    (∀ (t : List Char) (th : Nat) (ln : List Char),
        ln ∈ splitNl (remove_common_headers_footers t th) →
        ln ≠ [] → ln.length < 120 → (splitNl t).count ln < th) ∧
      (∀ t : List Char, ∀ ln ∈ splitNl (normalize_whitespace t), isDigitLine ln = false) ∧
      (∀ t : List Char, List.Chain' (fun a b => ¬(a = [] ∧ b = []))
        (splitNl (normalize_whitespace t))) :=
  ⟨hf_removed, fun t => (normalize_whitespace_lines t).1,
    fun t => (normalize_whitespace_lines t).2⟩

theorem cleanup_normalizer_spec_witness :
    ("ab".toList ∈ splitNl (remove_common_headers_footers "ab\nab\nab".toList 5) ∧
        "ab".toList ≠ [] ∧ "ab".toList.length < 120) ∧
      (splitNl "ab\nab\nab".toList).count "ab".toList < 5 :=
  ⟨⟨by decide, by decide, by decide⟩,
    cleanup_normalizer_spec.1 "ab\nab\nab".toList 5 "ab".toList
      (by decide) (by decide) (by decide)⟩

set_option maxRecDepth 40000 in
/-- C9 fails as stated: a line of 120 identical characters repeated 5
times (at the threshold) is *not* removed by
`remove_common_headers_footers`, because the frequency counter only
considers lines shorter than 120 characters — the text comes back
unchanged and still contains that non-empty line 5 times. -/
theorem cleanup_headers_cex :
    remove_common_headers_footers
        (joinNl (List.replicate 5 (List.replicate 120 'a'))) 5 =
      joinNl (List.replicate 5 (List.replicate 120 'a')) ∧
      List.replicate 120 'a' ∈
        splitNl (joinNl (List.replicate 5 (List.replicate 120 'a'))) ∧
      List.replicate 120 'a' ≠ [] ∧
      5 ≤ (splitNl (joinNl (List.replicate 5 (List.replicate 120 'a')))).count
        (List.replicate 120 'a') := by
  decide

end Drdo
